import Mathlib

/-!
Verification of the virtual PS/2 keyboard and mouse drivers
(`drivers/keyboard_driver.c`, `drivers/mouse_driver.c`).

The C sources are shallowly embedded: the circular byte buffer shared by
both drivers, the keyboard scan-code translation, the mouse 3-byte packet
assembly and decoding, and the sysfs injection endpoints become pure Lean
functions over explicit state.  Calls into the Linux input subsystem
(`input_report_key`, `input_report_rel`, `input_sync`) are modelled as
emitting elements of an event list, in call order.
-/

namespace KbdMouse

/-! ## Circular byte buffer

Both drivers use the same circular-buffer code (`buffer_empty`,
`buffer_full`, `buffer_push`, `buffer_pop`) over a fixed `BUFFER_SIZE`
array with `head`/`tail` cursors; the keyboard has `BUFFER_SIZE 128`, the
mouse `BUFFER_SIZE 256`.  The byte array is modelled as a function from
index to stored byte; the spinlock makes each operation atomic, so each
is one pure state transition here. -/

structure RingBuffer (N : Nat) where
  storage : Nat → Nat
  head : Nat
  tail : Nat

def KBD_BUFFER_SIZE : Nat := 128

def MOUSE_BUFFER_SIZE : Nat := 256

def buffer_empty {N : Nat} (b : RingBuffer N) : Bool :=
  b.head == b.tail

def buffer_full {N : Nat} (b : RingBuffer N) : Bool :=
  ((b.head + 1) % N) == b.tail

/-- `buffer_push`: if not full, store at `head` and advance `head`;
otherwise drop the byte (the C logs a warning and returns). -/
def buffer_push {N : Nat} (b : RingBuffer N) (x : Nat) : RingBuffer N :=
  if buffer_full b then b
  else
    RingBuffer.mk (fun i => if i = b.head then x else b.storage i)
      ((b.head + 1) % N) b.tail

/-- `buffer_pop`: `none` when empty (the C returns 0), else the byte at
`tail` and the state with `tail` advanced (the C returns 1). -/
def buffer_pop {N : Nat} (b : RingBuffer N) : Option (Nat × RingBuffer N) :=
  if buffer_empty b then none
  else some (b.storage b.tail, RingBuffer.mk b.storage b.head ((b.tail + 1) % N))

/-- The buffer state right after `vkbd_init`/`vmouse_init`: `head = 0`,
`tail = 0`, storage zeroed by `kzalloc`. -/
def emptyRing (N : Nat) : RingBuffer N :=
  RingBuffer.mk (fun _ => 0) 0 0

/-- Push a list of bytes in order (repeated `buffer_push`). -/
def pushAll {N : Nat} (b : RingBuffer N) (l : List Nat) : RingBuffer N :=
  l.foldl buffer_push b

/-- Pop `k` times, collecting the returned bytes in order. -/
def popAll {N : Nat} (b : RingBuffer N) : Nat → List Nat × RingBuffer N
  | 0 => ([], b)
  | k + 1 =>
    match buffer_pop b with
    | none => ([], b)
    | some (x, b2) =>
      let r := popAll b2 k
      (x :: r.1, r.2)

/-- Abstraction relation: buffer state `b` holds exactly the byte list `l`
(oldest first), with the cursors in range and the stored bytes laid out
circularly from `tail`. -/
def bufInv {N : Nat} (b : RingBuffer N) (l : List Nat) : Prop :=
  0 < N ∧ b.tail < N ∧ l.length < N ∧ b.head = (b.tail + l.length) % N ∧
    ∀ i, (h : i < l.length) → b.storage ((b.tail + i) % N) = l.get ⟨i, h⟩

theorem mod_two_cases (a N : Nat) (h0 : 0 < N) (h : a < 2 * N) :
    a % N = if a < N then a else a - N := by
  split
  · exact Nat.mod_eq_of_lt (by omega)
  · rw [Nat.mod_eq_sub_mod (by omega)]
    exact Nat.mod_eq_of_lt (by omega)

theorem mod_shift_inj {N t i j : Nat} (ht : t < N) (hi : i < N) (hj : j < N)
    (h : (t + i) % N = (t + j) % N) : i = j := by
  have h0 : 0 < N := by omega
  have h1 := mod_two_cases (t + i) N h0 (by omega)
  have h2 := mod_two_cases (t + j) N h0 (by omega)
  rw [h1, h2] at h
  split at h <;> split at h <;> omega

theorem bufInv_empty_iff {N : Nat} {b : RingBuffer N} {l : List Nat}
    (hinv : bufInv b l) : buffer_empty b = true ↔ l = [] := by
  obtain ⟨h0, ht, hl, hh, _⟩ := hinv
  constructor
  · intro he
    have hht : b.head = b.tail := by
      simpa [buffer_empty] using he
    have : (b.tail + l.length) % N = (b.tail + 0) % N := by
      rw [Nat.add_zero, Nat.mod_eq_of_lt ht, ← hh, hht]
    have := mod_shift_inj ht hl h0 this
    exact List.length_eq_zero.mp this
  · intro hl0
    subst hl0
    simp [buffer_empty, hh, Nat.mod_eq_of_lt ht]

theorem bufInv_push {N : Nat} {b : RingBuffer N} {l : List Nat} (x : Nat)
    (hinv : bufInv b l) (hroom : l.length + 1 < N) :
    bufInv (buffer_push b x) (l ++ [x]) := by
  obtain ⟨h0, ht, hl, hh, hs⟩ := hinv
  have hnotfull : buffer_full b = false := by
    simp only [buffer_full, beq_eq_false_iff_ne, Ne]
    intro hfull
    have : ((b.tail + l.length) % N + 1) % N = (b.tail + (l.length + 1)) % N := by
      rw [Nat.mod_add_mod, Nat.add_assoc]
    rw [hh, this] at hfull
    have htail : (b.tail + 0) % N = b.tail := by
      rw [Nat.add_zero]; exact Nat.mod_eq_of_lt ht
    have := mod_shift_inj ht hroom h0 (hfull.trans htail.symm)
    omega
  have hpush : buffer_push b x =
      (RingBuffer.mk (fun i => if i = b.head then x else b.storage i)
        ((b.head + 1) % N) b.tail : RingBuffer N) := by
    simp [buffer_push, hnotfull]
  rw [hpush]
  refine ⟨h0, ht, by simp; omega, ?_, ?_⟩
  · simp only [List.length_append, List.length_singleton, hh]
    rw [Nat.mod_add_mod, Nat.add_assoc]
  · intro i hi
    simp only [List.length_append, List.length_singleton] at hi
    simp only
    by_cases hil : i < l.length
    · have hne : (b.tail + i) % N ≠ b.head := by
        rw [hh]
        intro heq
        have := mod_shift_inj ht (by omega) hl heq
        omega
      rw [if_neg hne]
      have := hs i hil
      rw [this]
      exact (List.get_append i hil).symm
    · have hil2 : i = l.length := by omega
      subst hil2
      rw [hh, if_pos rfl]
      have : (l ++ [x]).get ⟨l.length, by simp⟩ = x := by
        simp
      rw [this]

theorem bufInv_pop {N : Nat} {b : RingBuffer N} {x : Nat} {l : List Nat}
    (hinv : bufInv b (x :: l)) :
    buffer_pop b = some (x, (RingBuffer.mk b.storage b.head ((b.tail + 1) % N) : RingBuffer N)) ∧
      bufInv (RingBuffer.mk b.storage b.head ((b.tail + 1) % N) : RingBuffer N) l := by
  obtain ⟨h0, ht, hl, hh, hs⟩ := hinv
  have hlen : (x :: l).length = l.length + 1 := rfl
  have hne : buffer_empty b = false := by
    cases hb : buffer_empty b
    · rfl
    · have := (bufInv_empty_iff ⟨h0, ht, hl, hh, hs⟩).mp hb
      simp at this
  have hx : b.storage b.tail = x := by
    have := hs 0 (by simp)
    simpa [Nat.mod_eq_of_lt ht] using this
  constructor
  · simp [buffer_pop, hne, hx]
  · refine ⟨h0, Nat.mod_lt _ h0, by simp at hl; omega, ?_, ?_⟩
    · rw [hh, Nat.mod_add_mod, hlen]
      congr 1
      omega
    · intro i hi
      rw [Nat.mod_add_mod]
      have h2 : b.tail + 1 + i = b.tail + (i + 1) := by omega
      rw [h2]
      have := hs (i + 1) (by simp; omega)
      rw [this]
      rfl

theorem bufInv_pushAll {N : Nat} (m : List Nat) :
    ∀ (b : RingBuffer N) (l : List Nat), bufInv b l → l.length + m.length < N →
      bufInv (pushAll b m) (l ++ m) := by
  induction m with
  | nil =>
    intro b l hinv _
    simpa [pushAll] using hinv
  | cons x m2 ih =>
    intro b l hinv hroom
    have h1 : bufInv (buffer_push b x) (l ++ [x]) :=
      bufInv_push x hinv (by simp at hroom ⊢; omega)
    have h2 := ih (buffer_push b x) (l ++ [x]) h1 (by simp at hroom ⊢; omega)
    have h3 : (l ++ [x]) ++ m2 = l ++ (x :: m2) := by simp
    rw [h3] at h2
    simpa [pushAll] using h2

theorem bufInv_popAll {N : Nat} (k : Nat) :
    ∀ (b : RingBuffer N) (l : List Nat), bufInv b l → k ≤ l.length →
      (popAll b k).1 = l.take k ∧ bufInv (popAll b k).2 (l.drop k) := by
  induction k with
  | zero =>
    intro b l hinv _
    simpa [popAll] using hinv
  | succ k2 ih =>
    intro b l hinv hk
    match l with
    | [] => simp at hk
    | x :: l2 =>
      obtain ⟨hpop, hinv2⟩ := bufInv_pop hinv
      have hk2 : k2 ≤ l2.length := by simp at hk; omega
      have := ih _ l2 hinv2 hk2
      simp only [popAll, hpop]
      exact ⟨by simp [this.1], by simpa using this.2⟩

theorem bufInv_emptyRing (N : Nat) (h0 : 0 < N) : bufInv (emptyRing N) [] := by
  refine ⟨h0, h0, h0, by simp [emptyRing], ?_⟩
  intro i hi
  simp at hi

/-- **C1.** For every sequence of at most `capacity - 1` bytes pushed into an
initially empty ring buffer (capacity 128 for the keyboard, 256 for the
mouse), successive pops return exactly those bytes in push order (FIFO),
and the buffer reports empty exactly when all pushed bytes have been
popped: after `k` pops the bytes returned are the first `k` pushed, and
`buffer_empty` holds iff `k` equals the number pushed. -/
theorem ringbuffer_fifo (N : Nat) (hN : N = KBD_BUFFER_SIZE ∨ N = MOUSE_BUFFER_SIZE)
    (bs : List Nat) (hlen : bs.length ≤ N - 1) (k : Nat) (hk : k ≤ bs.length) :
    (popAll (pushAll (emptyRing N) bs) k).1 = bs.take k ∧
      (buffer_empty (popAll (pushAll (emptyRing N) bs) k).2 = true ↔ k = bs.length) := by
  have h0 : 0 < N := by
    rcases hN with h | h <;> simp [h, KBD_BUFFER_SIZE, MOUSE_BUFFER_SIZE]
  have hlt : bs.length < N := by omega
  have hinv := bufInv_pushAll bs (emptyRing N) [] (bufInv_emptyRing N h0) (by simpa using hlt)
  rw [List.nil_append] at hinv
  have hpop := bufInv_popAll k _ bs hinv hk
  refine ⟨hpop.1, ?_⟩
  rw [bufInv_empty_iff hpop.2, List.drop_eq_nil_iff_le]
  omega

theorem ringbuffer_fifo_witness :
    ((128 : Nat) = KBD_BUFFER_SIZE ∨ (128 : Nat) = MOUSE_BUFFER_SIZE) ∧
      ([10, 20, 30] : List Nat).length ≤ 128 - 1 ∧ (2 : Nat) ≤ ([10, 20, 30] : List Nat).length ∧
      ((popAll (pushAll (emptyRing 128) [10, 20, 30]) 2).1 = ([10, 20, 30] : List Nat).take 2 ∧
        (buffer_empty (popAll (pushAll (emptyRing 128) [10, 20, 30]) 2).2 = true ↔
          2 = ([10, 20, 30] : List Nat).length)) :=
  ⟨Or.inl rfl, by decide, by decide,
    ringbuffer_fifo 128 (Or.inl rfl) [10, 20, 30] (by decide) 2 (by decide)⟩

/-- **C7.** Pushing a byte into a full ring buffer (one where
`(head + 1) % N = tail`) drops the new byte and leaves `head`, `tail` and
every stored slot unchanged; `buffer_push` is a total function returning
normally, so it never blocks and raises no error. -/
theorem push_full_unchanged {N : Nat} (b : RingBuffer N) (x : Nat)
    (hfull : (b.head + 1) % N = b.tail) :
    buffer_push b x = b ∧ (buffer_push b x).head = b.head ∧
      (buffer_push b x).tail = b.tail ∧ ∀ i, (buffer_push b x).storage i = b.storage i := by
  have hf : buffer_full b = true := by simp [buffer_full, hfull]
  simp [buffer_push, hf]

theorem push_full_unchanged_witness :
    (((RingBuffer.mk (fun _ => 7) 127 0 : RingBuffer 128).head + 1) % 128 =
        (RingBuffer.mk (fun _ => 7) 127 0 : RingBuffer 128).tail) ∧
      (buffer_push (RingBuffer.mk (fun _ => 7) 127 0 : RingBuffer 128) 5 =
          RingBuffer.mk (fun _ => 7) 127 0 ∧
        (buffer_push (RingBuffer.mk (fun _ => 7) 127 0 : RingBuffer 128) 5).head =
          (RingBuffer.mk (fun _ => 7) 127 0 : RingBuffer 128).head ∧
        (buffer_push (RingBuffer.mk (fun _ => 7) 127 0 : RingBuffer 128) 5).tail =
          (RingBuffer.mk (fun _ => 7) 127 0 : RingBuffer 128).tail ∧
        ∀ i, (buffer_push (RingBuffer.mk (fun _ => 7) 127 0 : RingBuffer 128) 5).storage i =
          (RingBuffer.mk (fun _ => 7) 127 0 : RingBuffer 128).storage i) :=
  ⟨by decide, push_full_unchanged (RingBuffer.mk (fun _ => 7) 127 0 : RingBuffer 128) 5 (by decide)⟩

/-! ## Keyboard driver (`keyboard_driver.c`)

Linux keycode constants from `linux/input-event-codes.h` used by the
scan-code table and by the shift-latch logic. -/

def KEY_ESC : Nat := 1

def KEY_1 : Nat := 2

def KEY_2 : Nat := 3

def KEY_3 : Nat := 4

def KEY_4 : Nat := 5

def KEY_5 : Nat := 6

def KEY_6 : Nat := 7

def KEY_7 : Nat := 8

def KEY_8 : Nat := 9

def KEY_9 : Nat := 10

def KEY_0 : Nat := 11

def KEY_MINUS : Nat := 12

def KEY_EQUAL : Nat := 13

def KEY_BACKSPACE : Nat := 14

def KEY_TAB : Nat := 15

def KEY_Q : Nat := 16

def KEY_W : Nat := 17

def KEY_E : Nat := 18

def KEY_R : Nat := 19

def KEY_T : Nat := 20

def KEY_Y : Nat := 21

def KEY_U : Nat := 22

def KEY_I : Nat := 23

def KEY_O : Nat := 24

def KEY_P : Nat := 25

def KEY_LEFTBRACE : Nat := 26

def KEY_RIGHTBRACE : Nat := 27

def KEY_ENTER : Nat := 28

def KEY_LEFTCTRL : Nat := 29

def KEY_A : Nat := 30

def KEY_S : Nat := 31

def KEY_D : Nat := 32

def KEY_F : Nat := 33

def KEY_G : Nat := 34

def KEY_H : Nat := 35

def KEY_J : Nat := 36

def KEY_K : Nat := 37

def KEY_L : Nat := 38

def KEY_SEMICOLON : Nat := 39

def KEY_APOSTROPHE : Nat := 40

def KEY_GRAVE : Nat := 41

def KEY_LEFTSHIFT : Nat := 42

def KEY_BACKSLASH : Nat := 43

def KEY_Z : Nat := 44

def KEY_X : Nat := 45

def KEY_C : Nat := 46

def KEY_V : Nat := 47

def KEY_B : Nat := 48

def KEY_N : Nat := 49

def KEY_M : Nat := 50

def KEY_COMMA : Nat := 51

def KEY_DOT : Nat := 52

def KEY_SLASH : Nat := 53

def KEY_RIGHTSHIFT : Nat := 54

def KEY_KPASTERISK : Nat := 55

def KEY_LEFTALT : Nat := 56

def KEY_SPACE : Nat := 57

def KEY_CAPSLOCK : Nat := 58

def KEY_F1 : Nat := 59

def KEY_F2 : Nat := 60

def KEY_F3 : Nat := 61

def KEY_F4 : Nat := 62

def KEY_F5 : Nat := 63

def KEY_F6 : Nat := 64

def KEY_F7 : Nat := 65

def KEY_F8 : Nat := 66

def KEY_F9 : Nat := 67

def KEY_F10 : Nat := 68

/-- The 128-entry `scancode_to_keycode` table: designated initializers
`[0x01] = KEY_ESC` through `[0x44] = KEY_F10`; every other entry
(index 0 and 0x45–0x7F) is the implicit zero ("no mapping"). -/
def scancode_to_keycode : List Nat :=
  [0, KEY_ESC, KEY_1, KEY_2, KEY_3, KEY_4, KEY_5, KEY_6, KEY_7, KEY_8,
   KEY_9, KEY_0, KEY_MINUS, KEY_EQUAL, KEY_BACKSPACE, KEY_TAB,
   KEY_Q, KEY_W, KEY_E, KEY_R, KEY_T, KEY_Y, KEY_U, KEY_I, KEY_O, KEY_P,
   KEY_LEFTBRACE, KEY_RIGHTBRACE, KEY_ENTER, KEY_LEFTCTRL,
   KEY_A, KEY_S, KEY_D, KEY_F, KEY_G, KEY_H, KEY_J, KEY_K, KEY_L,
   KEY_SEMICOLON, KEY_APOSTROPHE, KEY_GRAVE, KEY_LEFTSHIFT, KEY_BACKSLASH,
   KEY_Z, KEY_X, KEY_C, KEY_V, KEY_B, KEY_N, KEY_M, KEY_COMMA, KEY_DOT,
   KEY_SLASH, KEY_RIGHTSHIFT, KEY_KPASTERISK, KEY_LEFTALT, KEY_SPACE,
   KEY_CAPSLOCK, KEY_F1, KEY_F2, KEY_F3, KEY_F4, KEY_F5, KEY_F6, KEY_F7,
   KEY_F8, KEY_F9, KEY_F10] ++ List.replicate 59 0

/-- Events handed to the input subsystem by the keyboard driver:
`input_report_key(keycode, pressed)` and `input_sync`. -/
inductive KbdEvent where
  | key : Nat → Bool → KbdEvent
  | sync : KbdEvent
deriving DecidableEq

/-- One iteration of the `while (buffer_pop(...))` loop body of
`vkbd_tasklet_handler`, acting on one popped byte: split off the release
bit, mask to the 7-bit scan code, look the code up (out-of-range and
zero-mapped codes are discarded with no event), update the shift latch
for the two shift keys, and report `key` + `sync`.  The state is the
`shift_pressed` flag; the result lists the input-subsystem calls made. -/
def vkbd_process_byte (shift_pressed : Bool) (b : Nat) : Bool × List KbdEvent :=
  let key_release : Bool := (b &&& 0x80) != 0
  let scancode := b &&& 0x7F
  if scancode ≥ scancode_to_keycode.length then (shift_pressed, [])
  else
    let keycode := scancode_to_keycode.getD scancode 0
    if keycode = 0 then (shift_pressed, [])
    else
      let shift2 :=
        if keycode = KEY_LEFTSHIFT ∨ keycode = KEY_RIGHTSHIFT then !key_release
        else shift_pressed
      (shift2, [KbdEvent.key keycode (!key_release), KbdEvent.sync])

theorem scancode_to_keycode_length : scancode_to_keycode.length = 128 := by
  simp [scancode_to_keycode]

set_option maxRecDepth 10000

/-- **C5.** For every scan code `0x01`–`0x44` with the release bit (0x80)
clear, the keyboard decoder emits a key event with `pressed = true` for
the key at that index of the scan-code table (which is populated, i.e.
nonzero, over that whole range), followed by a sync; the same code with
bit 0x80 set emits the event with `pressed = false` for the same key.
This holds for either value of the shift latch. -/
theorem scancode_press_release (code : Nat) (h1 : 1 ≤ code) (h2 : code ≤ 0x44) (s : Bool) :
    scancode_to_keycode.getD code 0 ≠ 0 ∧
      (vkbd_process_byte s code).2 =
        [KbdEvent.key (scancode_to_keycode.getD code 0) true, KbdEvent.sync] ∧
      (vkbd_process_byte s (code ||| 0x80)).2 =
        [KbdEvent.key (scancode_to_keycode.getD code 0) false, KbdEvent.sync] := by
  have H : ∀ c, c < 69 → 1 ≤ c →
      ((scancode_to_keycode.getD c 0 ≠ 0 ∧
          (vkbd_process_byte false c).2 =
            [KbdEvent.key (scancode_to_keycode.getD c 0) true, KbdEvent.sync] ∧
          (vkbd_process_byte false (c ||| 0x80)).2 =
            [KbdEvent.key (scancode_to_keycode.getD c 0) false, KbdEvent.sync]) ∧
        (scancode_to_keycode.getD c 0 ≠ 0 ∧
          (vkbd_process_byte true c).2 =
            [KbdEvent.key (scancode_to_keycode.getD c 0) true, KbdEvent.sync] ∧
          (vkbd_process_byte true (c ||| 0x80)).2 =
            [KbdEvent.key (scancode_to_keycode.getD c 0) false, KbdEvent.sync])) := by
    decide
  cases s
  · exact (H code (by omega) h1).1
  · exact (H code (by omega) h1).2

theorem scancode_press_release_witness :
    1 ≤ 0x1E ∧ 0x1E ≤ 0x44 ∧
      (scancode_to_keycode.getD 0x1E 0 ≠ 0 ∧
        (vkbd_process_byte false 0x1E).2 =
          [KbdEvent.key (scancode_to_keycode.getD 0x1E 0) true, KbdEvent.sync] ∧
        (vkbd_process_byte false (0x1E ||| 0x80)).2 =
          [KbdEvent.key (scancode_to_keycode.getD 0x1E 0) false, KbdEvent.sync]) :=
  ⟨by decide, by decide, scancode_press_release 0x1E (by decide) (by decide) false⟩

/-- **C8.** A byte whose 7-bit scan code maps to the unmapped sentinel 0 of
the table (for example 0x4F, with or without the release bit) produces no
event: the byte is discarded and the decoder state — the shift latch — is
unchanged.  (Codes "outside the populated table" are exactly those
mapping to the implicit zero entries; the masked code is always inside
the 128-entry array itself.) -/
theorem unmapped_scancode_discarded (s : Bool) (b : Nat) (hb : b < 256)
    (hun : scancode_to_keycode.getD (b &&& 0x7F) 0 = 0) :
    vkbd_process_byte s b = (s, []) := by
  have hle : b &&& 0x7F ≤ 0x7F := Nat.and_le_right
  have hlen := scancode_to_keycode_length
  have hnot : ¬ (b &&& 0x7F ≥ scancode_to_keycode.length) := by omega
  rw [List.getD_eq_getElem?_getD] at hun
  simp [vkbd_process_byte, hnot, hun]

theorem unmapped_scancode_discarded_witness :
    (0x4F < 256 ∧ scancode_to_keycode.getD (0x4F &&& 0x7F) 0 = 0 ∧
        vkbd_process_byte false 0x4F = (false, [])) ∧
      (0xCF < 256 ∧ scancode_to_keycode.getD (0xCF &&& 0x7F) 0 = 0 ∧
        vkbd_process_byte true 0xCF = (true, [])) :=
  ⟨⟨by decide, by decide, unmapped_scancode_discarded false 0x4F (by decide) (by decide)⟩,
    ⟨by decide, by decide, unmapped_scancode_discarded true 0xCF (by decide) (by decide)⟩⟩

/-! ## Mouse driver (`mouse_driver.c`) -/

def PS2_LEFT_BTN : Nat := 1

def PS2_RIGHT_BTN : Nat := 2

def PS2_MIDDLE_BTN : Nat := 4

def PS2_ALWAYS_ONE : Nat := 8

def PS2_X_OVERFLOW : Nat := 64

def PS2_Y_OVERFLOW : Nat := 128

def BTN_LEFT : Nat := 0x110

def BTN_RIGHT : Nat := 0x111

def BTN_MIDDLE : Nat := 0x112

def REL_X : Nat := 0x00

def REL_Y : Nat := 0x01

/-- Events handed to the input subsystem by the mouse driver:
`input_report_key(button, pressed)`, `input_report_rel(axis, delta)`
and `input_sync`. -/
inductive MouseEvent where
  | button : Nat → Bool → MouseEvent
  | rel : Nat → Int → MouseEvent
  | sync : MouseEvent
deriving DecidableEq

/-- The C cast `(signed char)` applied to an `unsigned char` value:
8-bit two's-complement reinterpretation. -/
def signed_char (b : Nat) : Int :=
  if b % 256 < 128 then (b % 256 : Int) else (b % 256 : Int) - 256

/-- Modelled from the spec's own words ("interpreted as an 8-bit
two's-complement signed integer"), independently of the code's
`(signed char)` cast, for comparison against it. -/
def twosComplement8 (b : Nat) : Int :=
  if b &&& 0x80 = 0 then (b : Int) else (b : Int) - 256

/-- `process_packet` in `mouse_driver.c`.  Takes the three accumulated
packet bytes; returns `none` when the packet is invalid (status bit 3
`PS2_ALWAYS_ONE` clear: the C logs and returns false with no events) and
otherwise the list of input-subsystem calls made, in order.  Overflow
bits 6/7 of the status byte only produce debug logging; the motion values
are used unchanged. -/
def process_packet (p0 p1 p2 : Nat) : Option (List MouseEvent) :=
  if p0 &&& PS2_ALWAYS_ONE = 0 then none
  else
    let left : Bool := (p0 &&& PS2_LEFT_BTN) != 0
    let right : Bool := (p0 &&& PS2_RIGHT_BTN) != 0
    let middle : Bool := (p0 &&& PS2_MIDDLE_BTN) != 0
    let dx : Int := signed_char p1
    let dy : Int := -(signed_char p2)
    some ([MouseEvent.button BTN_LEFT left, MouseEvent.button BTN_RIGHT right,
           MouseEvent.button BTN_MIDDLE middle]
      ++ (if dx ≠ 0 then [MouseEvent.rel REL_X dx] else [])
      ++ (if dy ≠ 0 then [MouseEvent.rel REL_Y dy] else [])
      ++ [MouseEvent.sync])

/-- The mouse decoder state private to the tasklet: the 3-byte packet
accumulator (`packet`, modelled as a function from slot index to byte)
and the fill index `packet_idx`. -/
structure VMouseDecode where
  packet : Nat → Nat
  packet_idx : Nat

/-- One iteration of the `while (buffer_pop(...))` loop body of
`vmouse_tasklet_handler`: store the byte at `packet_idx`, increment it,
and when a full 3-byte packet has accumulated run `process_packet`
(an invalid packet yields no events) and reset `packet_idx` to 0. -/
def vmouse_feed (s : VMouseDecode) (b : Nat) : VMouseDecode × List MouseEvent :=
  let pk := fun i => if i = s.packet_idx then b else s.packet i
  let idx := s.packet_idx + 1
  if idx ≥ 3 then
    (VMouseDecode.mk pk 0, (process_packet (pk 0) (pk 1) (pk 2)).getD [])
  else
    (VMouseDecode.mk pk idx, [])

/-- Feed a list of popped bytes to the decoder in order, concatenating
the emitted events. -/
def vmouse_feed_all (s : VMouseDecode) : List Nat → VMouseDecode × List MouseEvent
  | [] => (s, [])
  | b :: bs =>
    let r := vmouse_feed s b
    let r2 := vmouse_feed_all r.1 bs
    (r2.1, r.2 ++ r2.2)

/-- The full mouse device state: ring buffer plus decoder state. -/
structure VMouseDev where
  buf : RingBuffer MOUSE_BUFFER_SIZE
  dec : VMouseDecode

/-- `vmouse_simulate_irq`: the top half pushes the byte and schedules the
tasklet (scheduling has no observable effect in this sequential model). -/
def vmouse_simulate_irq (d : VMouseDev) (b : Nat) : VMouseDev :=
  VMouseDev.mk (buffer_push d.buf b) d.dec

/-- The tasklet drain loop: pop until the buffer is empty, feeding each
byte to the packet accumulator.  `fuel` bounds the iterations. -/
def vmouse_drain : Nat → VMouseDev → VMouseDev × List MouseEvent
  | 0, d => (d, [])
  | fuel + 1, d =>
    match buffer_pop d.buf with
    | none => (d, [])
    | some (b, buf2) =>
      let r := vmouse_feed d.dec b
      let r2 := vmouse_drain fuel (VMouseDev.mk buf2 r.1)
      (r2.1, r.2 ++ r2.2)

/-- `vmouse_tasklet_handler`: the `while (buffer_pop(...))` loop runs to
buffer-empty; a 256-slot ring holds at most 255 bytes, so fuel
`MOUSE_BUFFER_SIZE` iterations always suffice to reach the empty case. -/
def vmouse_tasklet_handler (d : VMouseDev) : VMouseDev × List MouseEvent :=
  vmouse_drain MOUSE_BUFFER_SIZE d

/-- The mouse device state after `vmouse_init`: zeroed buffer and
accumulator, `head = tail = 0`, `packet_idx = 0`. -/
def vmouse_dev0 : VMouseDev :=
  VMouseDev.mk (emptyRing MOUSE_BUFFER_SIZE) (VMouseDecode.mk (fun _ => 0) 0)

theorem signed_char_eq_twosComplement8 : ∀ b, b < 256 → signed_char b = twosComplement8 b := by
  decide

theorem and_pow_testBit (p i : Nat) : ((p &&& 2 ^ i) != 0) = p.testBit i := by
  rw [Nat.and_two_pow]
  cases h : p.testBit i
  · simp
  · have hpos : 0 < 2 ^ i := Nat.pos_pow_of_pos i (by omega)
    simp only [Bool.toNat_true, Nat.one_mul, bne_iff_ne, Ne]
    omega

/-- **C2.** For every 3-byte mouse packet whose status byte has bit 3
(`PS2_ALWAYS_ONE`) set, the decoder reports left/right/middle button
states equal to bits 0/1/2 of the status byte, `dx` equal to byte 1 read
as an 8-bit two's-complement signed integer, and `dy` equal to the
negation of byte 2 read the same way.  The status byte is arbitrary
apart from bit 3, so in particular the motion values are neither clamped
nor suppressed when the overflow bits 6/7 are set. -/
theorem process_packet_decode (p0 p1 p2 : Nat) (h1 : p1 < 256) (h2 : p2 < 256)
    (hv : p0 &&& PS2_ALWAYS_ONE ≠ 0) :
    process_packet p0 p1 p2 =
      some ([MouseEvent.button BTN_LEFT (p0.testBit 0),
             MouseEvent.button BTN_RIGHT (p0.testBit 1),
             MouseEvent.button BTN_MIDDLE (p0.testBit 2)]
        ++ (if twosComplement8 p1 ≠ 0 then [MouseEvent.rel REL_X (twosComplement8 p1)] else [])
        ++ (if -(twosComplement8 p2) ≠ 0 then
              [MouseEvent.rel REL_Y (-(twosComplement8 p2))] else [])
        ++ [MouseEvent.sync]) := by
  have e1 := signed_char_eq_twosComplement8 p1 h1
  have e2 := signed_char_eq_twosComplement8 p2 h2
  have b0 : ((p0 &&& PS2_LEFT_BTN) != 0) = p0.testBit 0 := and_pow_testBit p0 0
  have b1 : ((p0 &&& PS2_RIGHT_BTN) != 0) = p0.testBit 1 := and_pow_testBit p0 1
  have b2 : ((p0 &&& PS2_MIDDLE_BTN) != 0) = p0.testBit 2 := and_pow_testBit p0 2
  simp only [process_packet, if_neg hv, e1, e2, b0, b1, b2]

theorem process_packet_decode_witness :
    (0xF9 : Nat) &&& PS2_ALWAYS_ONE ≠ 0 ∧ (200 : Nat) < 256 ∧ (5 : Nat) < 256 ∧
      process_packet 0xF9 200 5 =
        some ([MouseEvent.button BTN_LEFT ((0xF9 : Nat).testBit 0),
               MouseEvent.button BTN_RIGHT ((0xF9 : Nat).testBit 1),
               MouseEvent.button BTN_MIDDLE ((0xF9 : Nat).testBit 2)]
          ++ (if twosComplement8 200 ≠ 0 then [MouseEvent.rel REL_X (twosComplement8 200)] else [])
          ++ (if -(twosComplement8 5) ≠ 0 then
                [MouseEvent.rel REL_Y (-(twosComplement8 5))] else [])
          ++ [MouseEvent.sync]) :=
  ⟨by decide, by decide, by decide,
    process_packet_decode 0xF9 200 5 (by decide) (by decide) (by decide)⟩

/-- **C3.** For every valid mouse packet, the synthesized events come in
this fixed order: a button-state event for left, then right, then middle
(each present unconditionally, whatever the previous state), then a
relative-motion event for X only if `dx ≠ 0`, then one for Y only if
`dy ≠ 0`, then exactly one trailing sync marker. -/
theorem mouse_event_order (p0 p1 p2 : Nat) (hv : p0 &&& PS2_ALWAYS_ONE ≠ 0) :
    ∃ l r m : Bool, ∃ dx dy : Int,
      process_packet p0 p1 p2 =
        some ([MouseEvent.button BTN_LEFT l, MouseEvent.button BTN_RIGHT r,
               MouseEvent.button BTN_MIDDLE m]
          ++ (if dx ≠ 0 then [MouseEvent.rel REL_X dx] else [])
          ++ (if dy ≠ 0 then [MouseEvent.rel REL_Y dy] else [])
          ++ [MouseEvent.sync]) := by
  refine ⟨(p0 &&& PS2_LEFT_BTN) != 0, (p0 &&& PS2_RIGHT_BTN) != 0,
    (p0 &&& PS2_MIDDLE_BTN) != 0, signed_char p1, -(signed_char p2), ?_⟩
  simp only [process_packet, if_neg hv]

theorem mouse_event_order_witness :
    (0x09 : Nat) &&& PS2_ALWAYS_ONE ≠ 0 ∧
      ∃ l r m : Bool, ∃ dx dy : Int,
        process_packet 0x09 0x10 0xF0 =
          some ([MouseEvent.button BTN_LEFT l, MouseEvent.button BTN_RIGHT r,
                 MouseEvent.button BTN_MIDDLE m]
            ++ (if dx ≠ 0 then [MouseEvent.rel REL_X dx] else [])
            ++ (if dy ≠ 0 then [MouseEvent.rel REL_Y dy] else [])
            ++ [MouseEvent.sync]) :=
  ⟨by decide, mouse_event_order 0x09 0x10 0xF0 (by decide)⟩

/-- **C4 (counterexample).** Injecting the bytes `[0x09, 0x10, 0xF0]` into
the freshly initialized mouse controller does NOT yield the claimed
sequence with button-right pressed: status `0x09` has bit 1 clear, so the
right button is reported released.  The claim's event sequence is refuted
at this exact input. -/
theorem inject_09_10_F0_not_claimed_sequence :
    (vmouse_tasklet_handler (vmouse_simulate_irq
        (vmouse_simulate_irq (vmouse_simulate_irq vmouse_dev0 0x09) 0x10) 0xF0)).2 ≠
      [MouseEvent.button BTN_LEFT true, MouseEvent.button BTN_RIGHT true,
       MouseEvent.button BTN_MIDDLE false, MouseEvent.rel REL_X 16,
       MouseEvent.rel REL_Y 16, MouseEvent.sync] := by
  decide

/-- **C4 (amended).** Injecting the bytes `[0x09, 0x10, 0xF0]` into the
mouse controller yields exactly: button-left pressed, button-right
released, button-middle released, relative motion X = +16, relative
motion Y = +16, sync — in that order. -/
theorem inject_09_10_F0_events :
    (vmouse_tasklet_handler (vmouse_simulate_irq
        (vmouse_simulate_irq (vmouse_simulate_irq vmouse_dev0 0x09) 0x10) 0xF0)).2 =
      [MouseEvent.button BTN_LEFT true, MouseEvent.button BTN_RIGHT false,
       MouseEvent.button BTN_MIDDLE false, MouseEvent.rel REL_X 16,
       MouseEvent.rel REL_Y 16, MouseEvent.sync] := by
  decide

theorem vmouse_feed_all_append (xs ys : List Nat) : ∀ s : VMouseDecode,
    vmouse_feed_all s (xs ++ ys) =
      ((vmouse_feed_all (vmouse_feed_all s xs).1 ys).1,
        (vmouse_feed_all s xs).2 ++ (vmouse_feed_all (vmouse_feed_all s xs).1 ys).2) := by
  induction xs with
  | nil => intro s; simp [vmouse_feed_all]
  | cons b bs ih => intro s; simp [vmouse_feed_all, ih]

/-- Feeding one byte treats two decoder states identically whenever they
agree on `packet_idx` and on the accumulator slots already filled: each
slot is written before it is ever read. -/
theorem vmouse_feed_step_congr (s1 s2 : VMouseDecode) (b : Nat)
    (h : s1.packet_idx = s2.packet_idx)
    (hpk : ∀ i, i < s1.packet_idx → s1.packet i = s2.packet i) :
    (vmouse_feed s1 b).2 = (vmouse_feed s2 b).2 ∧
      (vmouse_feed s1 b).1.packet_idx = (vmouse_feed s2 b).1.packet_idx ∧
      ∀ i, i < (vmouse_feed s1 b).1.packet_idx →
        (vmouse_feed s1 b).1.packet i = (vmouse_feed s2 b).1.packet i := by
  obtain ⟨pk1, i1⟩ := s1
  obtain ⟨pk2, i2⟩ := s2
  simp only at h hpk
  subst h
  have hpk2 : ∀ j, j ≤ i1 →
      (if j = i1 then b else pk1 j) = (if j = i1 then b else pk2 j) := by
    intro j hj
    by_cases hj2 : j = i1
    · simp [hj2]
    · simp only [hj2, if_false]
      exact hpk j (by omega)
  unfold vmouse_feed
  dsimp only
  by_cases hc : i1 + 1 ≥ 3
  · rw [if_pos hc, if_pos hc]
    refine ⟨?_, rfl, ?_⟩
    · dsimp only
      rw [hpk2 0 (by omega), hpk2 1 (by omega), hpk2 2 (by omega)]
    · intro i hi
      simp at hi
  · rw [if_neg hc, if_neg hc]
    refine ⟨rfl, rfl, ?_⟩
    intro i hi
    dsimp only at hi ⊢
    exact hpk2 i (by omega)

theorem vmouse_feed_all_congr (bs : List Nat) : ∀ s1 s2 : VMouseDecode,
    s1.packet_idx = s2.packet_idx →
    (∀ i, i < s1.packet_idx → s1.packet i = s2.packet i) →
    (vmouse_feed_all s1 bs).2 = (vmouse_feed_all s2 bs).2 ∧
      (vmouse_feed_all s1 bs).1.packet_idx = (vmouse_feed_all s2 bs).1.packet_idx ∧
      ∀ i, i < (vmouse_feed_all s1 bs).1.packet_idx →
        (vmouse_feed_all s1 bs).1.packet i = (vmouse_feed_all s2 bs).1.packet i := by
  induction bs with
  | nil =>
    intro s1 s2 h hpk
    exact ⟨rfl, h, hpk⟩
  | cons b bs2 ih =>
    intro s1 s2 h hpk
    have hstep := vmouse_feed_step_congr s1 s2 b h hpk
    have hrest := ih (vmouse_feed s1 b).1 (vmouse_feed s2 b).1 hstep.2.1 hstep.2.2
    simp only [vmouse_feed_all]
    exact ⟨by rw [hstep.1, hrest.1], hrest.2.1, hrest.2.2⟩

/-- **C6.** When the three accumulated bytes form an invalid packet
(status bit 3 `PS2_ALWAYS_ONE` clear), all three bytes are discarded:
no event is produced, `packet_idx` is reset to 0, and subsequent bytes
are processed exactly as from a fresh accumulator — the events of any
continuation equal the events of feeding that continuation to the
original idx-0 state, with no byte-level realignment in between. -/
theorem invalid_packet_discarded (b0 b1 b2 : Nat) (hinv : b0 &&& PS2_ALWAYS_ONE = 0)
    (s : VMouseDecode) (hidx : s.packet_idx = 0) :
    (vmouse_feed_all s [b0, b1, b2]).2 = [] ∧
      (vmouse_feed_all s [b0, b1, b2]).1.packet_idx = 0 ∧
      ∀ rest : List Nat,
        (vmouse_feed_all s (b0 :: b1 :: b2 :: rest)).2 = (vmouse_feed_all s rest).2 := by
  have hrun : vmouse_feed_all s [b0, b1, b2] =
      ((VMouseDecode.mk (fun i => if i = 2 then b2 else if i = 1 then b1
          else if i = 0 then b0 else s.packet i) 0 : VMouseDecode), []) := by
    simp only [vmouse_feed_all, vmouse_feed, hidx]
    norm_num
    have hpp : process_packet b0 b1 b2 = none := by
      simp [process_packet, hinv]
    simp [hpp]
  refine ⟨by rw [hrun], by rw [hrun], ?_⟩
  intro rest
  have hsplit := vmouse_feed_all_append [b0, b1, b2] rest s
  have h3 : [b0, b1, b2] ++ rest = b0 :: b1 :: b2 :: rest := rfl
  rw [h3] at hsplit
  rw [hsplit, hrun]
  have hcongr := vmouse_feed_all_congr rest
    (VMouseDecode.mk (fun i => if i = 2 then b2 else if i = 1 then b1
      else if i = 0 then b0 else s.packet i) 0) s (by simpa using hidx.symm)
    (by intro i hi; simp at hi)
  simp [hcongr.1]

theorem invalid_packet_discarded_witness :
    (0x00 : Nat) &&& PS2_ALWAYS_ONE = 0 ∧
      (VMouseDecode.mk (fun _ => 0) 0 : VMouseDecode).packet_idx = 0 ∧
      ((vmouse_feed_all (VMouseDecode.mk (fun _ => 0) 0) [0x00, 0x10, 0x10]).2 = [] ∧
        (vmouse_feed_all (VMouseDecode.mk (fun _ => 0) 0) [0x00, 0x10, 0x10]).1.packet_idx = 0 ∧
        ∀ rest : List Nat,
          (vmouse_feed_all (VMouseDecode.mk (fun _ => 0) 0) (0x00 :: 0x10 :: 0x10 :: rest)).2 =
            (vmouse_feed_all (VMouseDecode.mk (fun _ => 0) 0) rest).2) :=
  ⟨by decide, rfl,
    invalid_packet_discarded 0x00 0x10 0x10 (by decide) (VMouseDecode.mk (fun _ => 0) 0) rfl⟩

/-! ## Sysfs injection endpoints

The stores call the kernel library parsers (`kstrtoul`,
`simple_strtoul`), which are not part of this repository; their outcomes
on the written text are represented abstractly: `Option Nat` for one
parse attempt (`none` = no number at that position, i.e. non-numeric
text), and a list of such outcomes for the mouse's whitespace-separated
token sequence.  Everything else mirrors the store functions in the C. -/

/-- `inject_scancode_store` (keyboard): a failed parse is returned to the
caller as an error; a value above 0xFF is rejected with `-EINVAL`;
otherwise the byte is pushed (cast to `unsigned char`) via
`vkbd_simulate_irq`.  The `Bool` is `true` iff the write is accepted. -/
def inject_scancode_store (r : Option Nat) (buf : RingBuffer KBD_BUFFER_SIZE) :
    RingBuffer KBD_BUFFER_SIZE × Bool :=
  match r with
  | none => (buf, false)
  | some v => if v > 0xFF then (buf, false) else (buffer_push buf (v % 256), true)

/-- The parse loop of `inject_packet_store`: `for (i = 0; i < 3; i++)` —
stop early when the text runs out, fail on a non-numeric token
(`endp == p`) or a value above 0xFF, and never look past the first three
tokens.  Returns the collected byte values. -/
def parse_packet_bytes : List (Option Nat) → Nat → Except Unit (List Nat)
  | _, 0 => Except.ok []
  | [], _ + 1 => Except.ok []
  | none :: _, _ + 1 => Except.error ()
  | some v :: rest, k + 1 =>
    if v > 0xFF then Except.error ()
    else
      match parse_packet_bytes rest k with
      | Except.error e => Except.error e
      | Except.ok l => Except.ok (v :: l)

/-- `inject_packet_store` (mouse): parse up to three byte values, reject
with `-EINVAL` unless exactly three were found, then inject each via
`vmouse_simulate_irq` (cast to `unsigned char`). -/
def inject_packet_store (tokens : List (Option Nat)) (d : VMouseDev) : VMouseDev × Bool :=
  match parse_packet_bytes tokens 3 with
  | Except.error _ => (d, false)
  | Except.ok bs =>
    if bs.length ≠ 3 then (d, false)
    else (bs.foldl (fun d2 b => vmouse_simulate_irq d2 (b % 256)) d, true)

theorem parse_packet_bytes_ok : ∀ (k : Nat) (toks : List (Option Nat)), toks.length ≤ k →
    (∀ t ∈ toks, t.isSome = true ∧ t.getD 0 ≤ 0xFF) →
    ∃ bs : List Nat, parse_packet_bytes toks k = Except.ok bs ∧ bs.length = toks.length := by
  intro k
  induction k with
  | zero =>
    intro toks hlen _
    have hnil : toks = [] := List.eq_nil_of_length_eq_zero (by omega)
    subst hnil
    exact ⟨[], rfl, rfl⟩
  | succ k2 ih =>
    intro toks hlen hval
    match toks with
    | [] => exact ⟨[], rfl, rfl⟩
    | none :: rest =>
      have := (hval none (by simp)).1
      simp at this
    | some v :: rest =>
      have hv := (hval (some v) (by simp)).2
      simp only [Option.getD_some] at hv
      obtain ⟨bs, hbs, hlen2⟩ := ih rest (by simp at hlen; omega)
        (fun t ht => hval t (by simp [ht]))
      refine ⟨v :: bs, ?_, by simp [hlen2]⟩
      simp only [parse_packet_bytes]
      rw [if_neg (by omega), hbs]

theorem parse_packet_bytes_error : ∀ (k : Nat) (toks : List (Option Nat)),
    (∃ t ∈ toks.take k, t = none ∨ ∃ v, t = some v ∧ 0xFF < v) →
    parse_packet_bytes toks k = Except.error () := by
  intro k
  induction k with
  | zero =>
    intro toks h
    simp at h
  | succ k2 ih =>
    intro toks h
    match toks with
    | [] => simp at h
    | none :: rest => rfl
    | some v :: rest =>
      rw [List.take_succ_cons] at h
      obtain ⟨t, ht, hcase⟩ := h
      by_cases hv : v > 0xFF
      · simp [parse_packet_bytes, hv]
      · have hmem : t ∈ rest.take k2 := by
          rcases List.mem_cons.mp ht with rfl | hmem2
          · rcases hcase with hnone | ⟨w, hw, hwlt⟩
            · simp at hnone
            · simp at hw
              omega
          · exact hmem2
        have herr := ih rest ⟨t, hmem, hcase⟩
        simp [parse_packet_bytes, hv, herr]

/-- **C9 (counterexample).** A mouse injection write carrying four byte
values — a count other than exactly three — is NOT rejected: the store
accepts it (parsing never looks past the third token), refuting the
claim that every wrong-count write is rejected. -/
theorem inject_packet_four_values_accepted :
    ([some 0x09, some 0x10, some 0xF0, some 0x10] : List (Option Nat)).length ≠ 3 ∧
      (inject_packet_store [some 0x09, some 0x10, some 0xF0, some 0x10] vmouse_dev0).2 = true := by
  exact ⟨by decide, rfl⟩

/-- **C9 (amended).** Malformed writes to the injection interfaces are
rejected with an invalid-argument error and mutate no internal state (no
byte reaches a ring buffer, hence no event can result): for the keyboard,
non-numeric text and values above 255; for the mouse, a non-numeric or
above-255 value among the first three tokens, and writes carrying fewer
than three values.  (A write with more than three values is accepted
using its first three — see the counterexample theorem.) -/
theorem inject_rejects_malformed :
    (∀ buf, inject_scancode_store none buf = (buf, false)) ∧
      (∀ buf v, 0xFF < v → inject_scancode_store (some v) buf = (buf, false)) ∧
      (∀ (d : VMouseDev) (toks : List (Option Nat)), toks.length < 3 →
        (∀ t ∈ toks, t.isSome = true ∧ t.getD 0 ≤ 0xFF) →
        inject_packet_store toks d = (d, false)) ∧
      (∀ (d : VMouseDev) (toks : List (Option Nat)),
        (∃ t ∈ toks.take 3, t = none ∨ ∃ v, t = some v ∧ 0xFF < v) →
        inject_packet_store toks d = (d, false)) := by
  refine ⟨fun buf => rfl, ?_, ?_, ?_⟩
  · intro buf v hv
    simp [inject_scancode_store, hv]
  · intro d toks hlen hval
    obtain ⟨bs, hbs, hlen2⟩ := parse_packet_bytes_ok 3 toks (by omega) hval
    unfold inject_packet_store
    rw [hbs]
    show (if bs.length ≠ 3 then ((d : VMouseDev), false)
      else (bs.foldl (fun d2 b => vmouse_simulate_irq d2 (b % 256)) d, true)) = (d, false)
    rw [if_pos (by omega)]
  · intro d toks hbad
    have herr := parse_packet_bytes_error 3 toks hbad
    unfold inject_packet_store
    rw [herr]

theorem inject_rejects_malformed_witness :
    inject_scancode_store none (emptyRing KBD_BUFFER_SIZE) =
        (emptyRing KBD_BUFFER_SIZE, false) ∧
      (0xFF < 0x1FF ∧ inject_scancode_store (some 0x1FF) (emptyRing KBD_BUFFER_SIZE) =
        (emptyRing KBD_BUFFER_SIZE, false)) ∧
      (([some 0x09, some 0x10] : List (Option Nat)).length < 3 ∧
        (∀ t ∈ ([some 0x09, some 0x10] : List (Option Nat)), t.isSome = true ∧ t.getD 0 ≤ 0xFF) ∧
        inject_packet_store [some 0x09, some 0x10] vmouse_dev0 = (vmouse_dev0, false)) ∧
      ((∃ t ∈ ([some 0x09, none, some 0x10] : List (Option Nat)).take 3,
          t = none ∨ ∃ v, t = some v ∧ 0xFF < v) ∧
        inject_packet_store [some 0x09, none, some 0x10] vmouse_dev0 = (vmouse_dev0, false)) :=
  ⟨inject_rejects_malformed.1 (emptyRing KBD_BUFFER_SIZE),
    ⟨by decide, inject_rejects_malformed.2.1 (emptyRing KBD_BUFFER_SIZE) 0x1FF (by decide)⟩,
    ⟨by decide, by decide,
      inject_rejects_malformed.2.2.1 vmouse_dev0 [some 0x09, some 0x10] (by decide) (by decide)⟩,
    ⟨⟨none, by decide, Or.inl rfl⟩,
      inject_rejects_malformed.2.2.2 vmouse_dev0 [some 0x09, none, some 0x10]
        ⟨none, by decide, Or.inl rfl⟩⟩⟩

/-- **C10.** For every input byte, the scan code after masking with 0x7F is
strictly below the size of the 128-entry scan-code table, so the table
lookup is always in bounds and the `scancode >= ARRAY_SIZE(...)` discard
branch of `vkbd_tasklet_handler` is unreachable. -/
theorem masked_scancode_in_bounds (b : Nat) :
    b &&& 0x7F < scancode_to_keycode.length := by
  have hle : b &&& 0x7F ≤ 0x7F := Nat.and_le_right
  have hlen := scancode_to_keycode_length
  omega

end KbdMouse
